import Mathlib

/-!
# Verification of the pydlr Discrete Lehmann Representation library

Shallow embedding of `pydlr/pydlr.py` and `pydlr/kernel.py` (Wentzell/libdlr).

Conventions of the embedding:

* NumPy floating point arrays are modelled by exact real (`ℝ`) or complex
  (`ℂ`) valued functions; rank-3 arrays `G_xaa` of shape `(n, d, d)` become
  `Fin n → Matrix (Fin d) (Fin d) ℂ`.  Accuracy clauses "to within C·ε" of
  the specification are rendered as exact equality, since in exact
  arithmetic the transform algebra is exact.
* `scipy.linalg.lu_factor` output `(lu, piv)` is modelled by an `LUFact`
  triple `(P, L, U)` of a row-permutation matrix and the two triangular
  factors; `scipy.linalg.lu_solve((lu, piv), b)`, which performs the row
  permutation followed by forward and backward substitution, is modelled as
  multiplication by `U⁻¹ * L⁻¹ * Pᵀ` on the leading axis (`luSolve`).
* `np.tensordot(M, G, axes=(1, 0))` and `np.matmul(M, G.reshape(n, d*d))`
  are both the action of an `n × n` matrix on the leading axis of a rank-3
  array, modelled by `mapX`.
* The flattening `G.reshape((n*d, ...))` of the leading double index `(x, a)`
  (row-major) is modelled with the product index type `Fin n × Fin d`
  ordered lexicographically.
* The constructor `KernelInterpolativeDecoposition` (kernel rank-revealing
  decomposition driver) is not among the provided sources; the `dlr` handle
  is therefore an abstract structure holding the fields the methods read
  (`dlrit`, `dlrrf`, `dlrmf`, `T_lx`, its LU factorization `(dlrit2cf,
  it2cfpiv)`, `T_qx`, its LU factorization `(dlrmf2cf, mf2cfpiv)`, `xi`),
  and claims about the factorizations take them as hypotheses, exactly as
  the claim statements do.
* External dense linear-algebra routines (`np.linalg.solve`, `np.linalg.inv`,
  `scipy.eigh`, `scipy.sparse.linalg.gmres`) are the documented external
  dependency contract: `solve`/`inv` are modelled with the Mathlib matrix
  inverse, `eigh` by an eigendecomposition oracle passed to the caller, and
  `gmres` by an abstract solver parameter returning a result and an `info`
  convergence flag, as scipy's does.
-/

open scoped BigOperators Matrix

namespace Pydlr

/-! ## Action of a square matrix on the leading axis of an array

`mapX M G` is `np.tensordot(M, G, axes=(1, 0))`: the `x`-th slice of the
result is `∑ y, M x y • G y`.  `V` is the type of one slice. -/

variable {n m d : ℕ}

/-- `np.tensordot(M, G, axes=(1, 0))` / `np.matmul(M, G.reshape(n, -1))`:
matrix action on the leading axis of an array whose slices live in `V`. -/
def mapX {α : Type} [Semiring α] {V : Type} [AddCommMonoid V] [Module α V]
    (M : Matrix (Fin n) (Fin n) α) (G : Fin n → V) : Fin n → V :=
  fun x => ∑ y, M x y • G y

theorem mapX_mapX {α : Type} [CommRing α] {V : Type} [AddCommGroup V] [Module α V]
    (M N : Matrix (Fin n) (Fin n) α) (G : Fin n → V) :
    mapX M (mapX N G) = mapX (M * N) G := by
  funext x
  simp only [mapX, Matrix.mul_apply, Finset.smul_sum, Finset.sum_smul, smul_smul]
  exact Finset.sum_comm

theorem mapX_one {α : Type} [CommRing α] {V : Type} [AddCommGroup V] [Module α V]
    (G : Fin n → V) : mapX (1 : Matrix (Fin n) (Fin n) α) G = G := by
  funext x
  simp [mapX, Matrix.one_apply, ite_smul]

/-! ## Pivoted LU factorizations (`scipy.linalg.lu_factor` / `lu_solve`) -/

/-- The data of a pivoted LU factorization `(lu, piv)` as produced by
`scipy.linalg.lu_factor`: a row-permutation matrix `P` and triangular
factors `L`, `U` with `A = P * L * U`. -/
structure LUFact (n : ℕ) (α : Type) [Field α] where
  P : Matrix (Fin n) (Fin n) α
  L : Matrix (Fin n) (Fin n) α
  U : Matrix (Fin n) (Fin n) α

/-- `f` is a pivoted LU factorization of `A`: `A = P L U` with `P` a
permutation matrix (orthogonal), `L` unit lower triangular and `U` upper
triangular with nonvanishing diagonal (the usable factorizations, i.e. the
ones `lu_solve` can perform forward/backward substitution with). -/
def LUFact.factorizes {α : Type} [Field α] (f : LUFact n α)
    (A : Matrix (Fin n) (Fin n) α) : Prop :=
  A = f.P * f.L * f.U ∧ f.Pᵀ * f.P = 1 ∧
    (∀ i j : Fin n, i < j → f.L i j = 0) ∧ (∀ i : Fin n, f.L i i = 1) ∧
    (∀ i j : Fin n, j < i → f.U i j = 0) ∧ (∀ i : Fin n, f.U i i ≠ 0)

/-- `scipy.linalg.lu_solve((lu, piv), B)` on the leading axis of `B`:
row permutation, forward substitution with `L`, backward substitution
with `U`. -/
noncomputable def luSolve {α : Type} [Field α] {V : Type} [AddCommGroup V] [Module α V]
    (f : LUFact n α) (B : Fin n → V) : Fin n → V :=
  mapX f.U⁻¹ (mapX f.L⁻¹ (mapX f.Pᵀ B))

theorem LUFact.isUnit_detL {α : Type} [Field α] {f : LUFact n α}
    {A : Matrix (Fin n) (Fin n) α} (h : f.factorizes A) : IsUnit f.L.det := by
  have htri : f.L.BlockTriangular OrderDual.toDual := fun i j hij => h.2.2.1 i j hij
  rw [Matrix.det_of_lowerTriangular f.L htri,
    Finset.prod_congr rfl (fun i _ => h.2.2.2.1 i)]
  simp

theorem LUFact.isUnit_detU {α : Type} [Field α] {f : LUFact n α}
    {A : Matrix (Fin n) (Fin n) α} (h : f.factorizes A) : IsUnit f.U.det := by
  have htri : f.U.BlockTriangular id := fun i j hij => h.2.2.2.2.1 i j hij
  rw [Matrix.det_of_upperTriangular htri, isUnit_iff_ne_zero]
  exact Finset.prod_ne_zero_iff.mpr fun i _ => h.2.2.2.2.2 i

/-- The solve matrix `U⁻¹ L⁻¹ Pᵀ` is a two-sided inverse of `A`. -/
theorem LUFact.solveMat_mul {α : Type} [Field α] {f : LUFact n α}
    {A : Matrix (Fin n) (Fin n) α} (h : f.factorizes A) :
    f.U⁻¹ * f.L⁻¹ * f.Pᵀ * A = 1 := by
  have hL := Matrix.nonsing_inv_mul f.L (f.isUnit_detL h)
  have hU := Matrix.nonsing_inv_mul f.U (f.isUnit_detU h)
  calc f.U⁻¹ * f.L⁻¹ * f.Pᵀ * A
      = f.U⁻¹ * (f.L⁻¹ * ((f.Pᵀ * f.P) * f.L) * f.U) := by
        rw [h.1]; noncomm_ring
    _ = 1 := by rw [h.2.1, one_mul, hL, one_mul, hU]

theorem LUFact.mul_solveMat {α : Type} [Field α] {f : LUFact n α}
    {A : Matrix (Fin n) (Fin n) α} (h : f.factorizes A) :
    A * f.U⁻¹ * f.L⁻¹ * f.Pᵀ = 1 := by
  have h1 := Matrix.mul_eq_one_comm.mp (f.solveMat_mul h)
  rwa [← Matrix.mul_assoc, ← Matrix.mul_assoc] at h1

/-- Solving after applying `A` on the leading axis is the identity. -/
theorem luSolve_mapX {α : Type} [Field α] {V : Type} [AddCommGroup V] [Module α V]
    {f : LUFact n α} {A : Matrix (Fin n) (Fin n) α} (h : f.factorizes A)
    (G : Fin n → V) : luSolve f (mapX A G) = G := by
  unfold luSolve
  rw [mapX_mapX, mapX_mapX, mapX_mapX, f.solveMat_mul h, mapX_one]

/-- Applying `A` on the leading axis after solving is the identity. -/
theorem mapX_luSolve {α : Type} [Field α] {V : Type} [AddCommGroup V] [Module α V]
    {f : LUFact n α} {A : Matrix (Fin n) (Fin n) α} (h : f.factorizes A)
    (G : Fin n → V) : mapX A (luSolve f G) = G := by
  unfold luSolve
  rw [mapX_mapX, mapX_mapX, mapX_mapX, f.mul_solveMat h, mapX_one]

/-- If `mapX A c = B` then `lu_solve` on `B` recovers `c`. -/
theorem luSolve_unique {α : Type} [Field α] {V : Type} [AddCommGroup V] [Module α V]
    {f : LUFact n α} {A : Matrix (Fin n) (Fin n) α} (h : f.factorizes A)
    {c : Fin n → V} {B : Fin n → V} (hc : mapX A c = B) : luSolve f B = c := by
  rw [← hc, luSolve_mapX h]

/-- The trivial factorization `P = L = U = 1`, a factorization of `1`. -/
def LUFact.trivial (n : ℕ) (α : Type) [Field α] : LUFact n α := ⟨1, 1, 1⟩

theorem LUFact.trivial_factorizes {α : Type} [Field α] :
    (LUFact.trivial n α).factorizes 1 := by
  refine ⟨by simp [LUFact.trivial], by simp [LUFact.trivial], ?_, ?_, ?_, ?_⟩ <;>
    intros <;> simp_all [LUFact.trivial, Matrix.one_apply, Fin.ext_iff]
  · omega
  · omega

/-! ## `pydlr/kernel.py` -/

open Real in
/-- `kernel(tau, omega)` (`kernel.py`), elementwise: the numerically split
analytic-continuation kernel.  For `ω > 0` it is `exp(-τω)/(1+exp(-ω))`,
for `ω ≤ 0` it is `exp((1-τ)ω)/(1+exp(ω))`. -/
noncomputable def kernelFn (tau omega : ℝ) : ℝ :=
  if 0 < omega then exp (-tau * omega) / (1 + exp (-omega))
  else exp ((1 - tau) * omega) / (1 + exp omega)

open Real in
/-- `chebyschev_collocation_points_1st_kind(N)` after the `[::-1]` reversal
performed in `kernel_discretization`: entry `k` is
`cos(π (2 (N-1-k) + 1) / (2 N))`, increasing in `k`. -/
noncomputable def chebPt (N k : ℕ) : ℝ :=
  cos (π * (2 * (N - 1 - k) + 1) / (2 * N))

open Real in
/-- `chebyschev_barycentric_weights_1st_kind(N)`:
`w_i = (-1)^i sin(π (2i+1) / (2N))`. -/
noncomputable def chebWeight (N i : ℕ) : ℝ :=
  (-1) ^ i * sin (π * (2 * i + 1) / (2 * N))

/-- Panel order `N = 24` fixed inside `kernel_discretization` /
`gridparams`. -/
def order : ℕ := 24

open Real in
/-- `gridparams`: number of imaginary-time panels,
`npt = max(ceil(log2 lamb) - 2, 1)`. -/
noncomputable def nptOf (lamb : ℝ) : ℕ :=
  (max (⌈log lamb / log 2⌉ - 2) 1).toNat

open Real in
/-- `gridparams`: half the number of frequency panels,
`npo = max(ceil(log2 lamb), 1)`. -/
noncomputable def npoOf (lamb : ℝ) : ℕ :=
  (max ⌈log lamb / log 2⌉ 1).toNat

/-- `gridparams`: total number of time grid points `nt = 2 * order * npt`. -/
noncomputable def ntOf (lamb : ℝ) : ℕ := 2 * order * nptOf lamb

/-- `gridparams`: total number of frequency grid points `no = 2 * order * npo`. -/
noncomputable def noOf (lamb : ℝ) : ℕ := 2 * order * npoOf lamb

/-- Time panel break points: `t_panel_break_pt[0] = 0` and
`t_panel_break_pt[i] = 2^-(npt + 1 - i)` for `1 ≤ i ≤ npt`
(dyadic refinement towards `τ = 0`). -/
noncomputable def tPanelBreak (npt i : ℕ) : ℝ :=
  if i = 0 then 0 else (2 : ℝ)⁻¹ ^ (npt + 1 - i)

/-- Frequency panel break points on `[-lamb, lamb]`:
`w_panel_break_pt[m] = -lamb·2^-m` for `m < npo`, `0` at `m = npo`, and
`lamb·2^-(2·npo - m)` for `m > npo` (dyadic refinement towards `ω = 0`,
symmetric about it). -/
noncomputable def wPanelBreak (lamb : ℝ) (npo m : ℕ) : ℝ :=
  if m < npo then -(lamb * (2 : ℝ)⁻¹ ^ m)
  else if m = npo then 0
  else lamb * (2 : ℝ)⁻¹ ^ (2 * npo - m)

/-- Image of reversed Chebyshev point `k` in the panel `[a, b]`:
`a + (b - a) * 0.5 * (x_k + 1)`. -/
noncomputable def panelPt (a b : ℝ) (N k : ℕ) : ℝ :=
  a + (b - a) * (2 : ℝ)⁻¹ * (chebPt N k + 1)

/-- The time grid `t` of `kernel_discretization`: the first `nt/2` entries
are the panel-mapped Chebyshev points; the remaining entries keep the `0`
of the initial `np.zeros(nt)`. -/
noncomputable def tGrid (lamb : ℝ) : Fin (ntOf lamb) → ℝ := fun idx =>
  if (idx : ℕ) < ntOf lamb / 2 then
    panelPt (tPanelBreak (nptOf lamb) ((idx : ℕ) / order))
      (tPanelBreak (nptOf lamb) ((idx : ℕ) / order + 1)) order ((idx : ℕ) % order)
  else 0

/-- The frequency grid `w` of `kernel_discretization`: all `no` entries are
panel-mapped Chebyshev points. -/
noncomputable def wGrid (lamb : ℝ) : Fin (noOf lamb) → ℝ := fun idx =>
  panelPt (wPanelBreak lamb (npoOf lamb) ((idx : ℕ) / order))
    (wPanelBreak lamb (npoOf lamb) ((idx : ℕ) / order + 1)) order ((idx : ℕ) % order)

/-- The discretized kernel matrix of `kernel_discretization`:
`kmat = np.vstack((kernel(t[:nt//2], w), kernel(t[:nt//2], w)[::-1, ::-1]))` —
the lower time half is evaluated directly, the upper half is the doubly
reversed copy. -/
noncomputable def kmat (lamb : ℝ) : Fin (ntOf lamb) → Fin (noOf lamb) → ℝ :=
  fun i j =>
    if (i : ℕ) < ntOf lamb / 2 then kernelFn (tGrid lamb i) (wGrid lamb j)
    else
      kernelFn (tGrid lamb ⟨ntOf lamb - 1 - (i : ℕ), by omega⟩)
        (wGrid lamb ⟨noOf lamb - 1 - (j : ℕ), by omega⟩)

/-! ### `barycentric_interpolation`

`np.argwhere(x_i == x)` compares the node array and the query array
elementwise; with legacy NumPy broadcasting a length mismatch makes the
comparison `False` (no matches).  If any position matches, the SINGLE value
`f_i[idxs[0]]` (first matching position, i.e. the least index) is returned;
otherwise the array of weighted-rational interpolants is returned.  The
first match is modelled with `Fin.find`, which returns the least index
satisfying the predicate. -/

/-- The off-grid branch of `barycentric_interpolation`:
`val_x[k] = Σ_j (w_j/(x_k - x_j))·f_j / Σ_j w_j/(x_k - x_j)`. -/
def baryRational {K : Type} [Field K] {M N : ℕ}
    (x : Fin M → K) (x_i f_i w_i : Fin N → K) : Fin M → K := fun k =>
  (∑ j, w_i j / (x k - x_i j) * f_i j) / (∑ j, w_i j / (x k - x_i j))

/-- `barycentric_interpolation(x, x_i, f_i, w_i)` (`kernel.py`).  Returns
either the single stored value at the first positionwise coincidence
(`Sum.inl`), or the array of rational interpolants (`Sum.inr`). -/
def barycentric_interpolation {K : Type} [Field K] [DecidableEq K] {M N : ℕ}
    (x : Fin M → K) (x_i f_i w_i : Fin N → K) : K ⊕ (Fin M → K) :=
  if h : M = N then
    match Fin.find (fun j : Fin N => x_i j = x (Fin.cast h.symm j)) with
    | some j => Sum.inl (f_i j)
    | none => Sum.inr (baryRational x x_i f_i w_i)
  else Sum.inr (baryRational x x_i f_i w_i)

/-! ## The `dlr` class (`pydlr/pydlr.py`)

The constructor delegates kernel discretization, rank-revealing node
selection and the LU factorizations of the fit matrices to
`KernelInterpolativeDecoposition` (not among the provided sources); the
handle therefore carries those members abstractly, exactly the members the
methods read. -/

/-- The `dlr` basis handle of rank `n`: the members copied from the kernel
interpolative decomposition in `dlr.__init__`. -/
structure dlr (n : ℕ) where
  /-- statistics sign `ξ = np.sign(xi)`; `-1` fermions, `+1` bosons -/
  xi : ℝ
  /-- scale parameter `Λ` -/
  lamb : ℝ
  /-- accuracy target `ε` -/
  eps : ℝ
  /-- DLR imaginary-time nodes `τ̂ ∈ [0, 1]` (dimensionless) -/
  dlrit : Fin n → ℝ
  /-- DLR real-frequency nodes `ω_x` -/
  dlrrf : Fin n → ℝ
  /-- DLR Matsubara integer indices -/
  dlrmf : Fin n → ℤ
  /-- dense DLR→imaginary-time matrix `T_lx` -/
  T_lx : Matrix (Fin n) (Fin n) ℝ
  /-- `(dlrit2cf, it2cfpiv)`: LU data used by `dlr_from_tau` -/
  luT : LUFact n ℝ
  /-- dense DLR→Matsubara matrix `T_qx` -/
  T_qx : Matrix (Fin n) (Fin n) ℂ
  /-- `(dlrmf2cf, mf2cfpiv)`: LU data used by `dlr_from_matsubara` -/
  luQ : LUFact n ℂ

variable {K : Type}

/-- `get_tau_over_beta()`: the dimensionless `τ̂`-grid. -/
def dlr.get_tau_over_beta (h : dlr n) : Fin n → ℝ := h.dlrit

/-- `get_tau(beta)`: the `τ`-grid in `[0, β]`. -/
def dlr.get_tau (h : dlr n) (beta : ℝ) : Fin n → ℝ :=
  fun l => h.get_tau_over_beta l * beta

/-- `dlr_from_tau(G_laa)`: `lu_solve((dlrit2cf, it2cfpiv), G_laa)`. -/
noncomputable def dlr.dlr_from_tau (h : dlr n) {V : Type} [AddCommGroup V]
    [Module ℝ V] (G : Fin n → V) : Fin n → V :=
  luSolve h.luT G

/-- `tau_from_dlr(G_xaa)`: `np.tensordot(T_lx, G_xaa, axes=(1, 0))`. -/
def dlr.tau_from_dlr (h : dlr n) {V : Type} [AddCommMonoid V] [Module ℝ V]
    (G : Fin n → V) : Fin n → V :=
  mapX h.T_lx G

/-- `eval_dlr_tau(G_xaa, tau, beta)`: off-grid imaginary-time evaluation.
The guard is the `assert(self.xi == -1.)` (not implemented for bosons): a
failed Python `assert` raises, modelled by `Except.error`.  Off the guard,
the basis frequencies are split into `w_x > 0` and `w_x ≤ 0` contributions
with the numerically safe kernel formulas. -/
noncomputable def dlr.eval_dlr_tau (h : dlr n) {d m : ℕ}
    (G : Fin n → Matrix (Fin d) (Fin d) ℂ) (tau : Fin m → ℝ) (beta : ℝ) :
    Except String (Fin m → Matrix (Fin d) (Fin d) ℂ) :=
  if h.xi = -1 then
    Except.ok fun t => ∑ x,
      (if 0 < h.dlrrf x / beta then
        Real.exp (-(tau t) * (h.dlrrf x / beta)) /
          (1 + Real.exp (-(beta * (h.dlrrf x / beta))))
      else
        Real.exp ((beta - tau t) * (h.dlrrf x / beta)) /
          (Real.exp (beta * (h.dlrrf x / beta)) + 1)) • G x
  else Except.error "eval_dlr_tau: not implemented for bosons, yet"

/-- `dlr_from_matsubara(G_qaa, beta)`:
`lu_solve((dlrmf2cf, mf2cfpiv), G_qaa.conj() / beta)`. -/
noncomputable def dlr.dlr_from_matsubara (h : dlr n) {d : ℕ}
    (G : Fin n → Matrix (Fin d) (Fin d) ℂ) (beta : ℝ) :
    Fin n → Matrix (Fin d) (Fin d) ℂ :=
  luSolve h.luQ fun q => (beta : ℂ)⁻¹ • (G q).map (starRingEnd ℂ)

/-- `matsubara_from_dlr(G_xaa, beta)`:
`beta * np.tensordot(T_qx, G_xaa, axes=(1, 0))`, then the rank-3 axis
transpose `(0, 2, 1)`, then elementwise conjugation. -/
noncomputable def dlr.matsubara_from_dlr (h : dlr n) {d : ℕ}
    (G : Fin n → Matrix (Fin d) (Fin d) ℂ) (beta : ℝ) :
    Fin n → Matrix (Fin d) (Fin d) ℂ :=
  fun q => (((beta : ℂ) • mapX h.T_qx G q)ᵀ).map (starRingEnd ℂ)

/-! ### Auxiliary members precomputed in `dlr.__init__` -/

/-- `W_xx = 1/(I + ω_x[:,None] - ω_x[None,:]) - I`. -/
noncomputable def dlr.W_xx (h : dlr n) : Matrix (Fin n) (Fin n) ℝ :=
  Matrix.of fun i j =>
    1 / ((if i = j then 1 else 0) + h.dlrrf i - h.dlrrf j) -
      (if i = j then 1 else 0)

/-- `k1_x = -np.squeeze(kernel(np.ones(1), w_x))`. -/
noncomputable def dlr.k1_x (h : dlr n) : Fin n → ℝ :=
  fun x => -kernelFn 1 (h.dlrrf x)

/-- `TtT_xx = dlr_from_tau(tau_l[:, None] * T_lx)` with `tau_l = get_tau(1.)`. -/
noncomputable def dlr.TtT_xx (h : dlr n) : Matrix (Fin n) (Fin n) ℝ :=
  Matrix.of (h.dlr_from_tau fun l => fun xp => h.get_tau 1 l * h.T_lx l xp)

/-! ### Convolution (`convolution`, `convolution_matrix`, `convolution_dense`) -/

/-- `convolution(A_xaa, B_xaa, beta)`: the O(N²) DLR convolution.
In source order: `C = (W_xxᵀ·A)·B`, `C += A·(W_xxᵀ·B)`, `C += k1 ⊙ (A·B)`,
`C += TtT·(A·B)`, `C *= beta`. -/
noncomputable def dlr.convolution (h : dlr n) {d : ℕ}
    (A B : Fin n → Matrix (Fin d) (Fin d) ℂ) (beta : ℝ) :
    Fin n → Matrix (Fin d) (Fin d) ℂ :=
  let WA := mapX h.W_xxᵀ A
  let WB := mapX h.W_xxᵀ B
  let AB := fun x => A x * B x
  fun x => beta • (WA x * B x + A x * WB x + h.k1_x x • AB x + mapX h.TtT_xx AB x)

/-- `convolution_matrix(A_xaa, beta)` in block form: block `(i, j)` of the
`x a x a` array before the final `moveaxis`-flattening, i.e.
`C[i,j] = W[j,i]·A_i + TtT[i,j]·A_j + δ_ij (Wᵀ·A + k1 ⊙ A)_i`, times `beta`. -/
noncomputable def dlr.convolution_matrix (h : dlr n) {d : ℕ}
    (A : Fin n → Matrix (Fin d) (Fin d) ℂ) (beta : ℝ) :
    Fin n → Fin n → Matrix (Fin d) (Fin d) ℂ :=
  let Q := fun x => mapX h.W_xxᵀ A x + h.k1_x x • A x
  fun i j =>
    beta • (h.W_xx j i • A i + h.TtT_xx i j • A j + if i = j then Q i else 0)

/-- `.reshape((n*na, n*na))` of the `moveaxis`-ed convolution-matrix array:
the leading and trailing double indices `(x, a)` flatten row-major, modelled
by the lexicographic product index. -/
def flattenSq {d : ℕ} (C : Fin n → Fin n → Matrix (Fin d) (Fin d) ℂ) :
    Matrix (Fin n × Fin d) (Fin n × Fin d) ℂ :=
  Matrix.of fun p q => C p.1 q.1 p.2 q.2

/-- `G_xaa.reshape((n*na, na))`. -/
def flattenV {d : ℕ} (G : Fin n → Matrix (Fin d) (Fin d) ℂ) :
    Matrix (Fin n × Fin d) (Fin d) ℂ :=
  Matrix.of fun p c => G p.1 p.2 c

/-- `M_Aa.reshape((n, na, na))`. -/
def unflattenV {d : ℕ} (M : Matrix (Fin n × Fin d) (Fin d) ℂ) :
    Fin n → Matrix (Fin d) (Fin d) ℂ :=
  fun x => Matrix.of fun a c => M (x, a) c

/-- `convolution_dense(A_xaa, B_xaa, beta)`:
`convolution_matrix(A, beta).reshape((n*na, n*na)) @ B.reshape((n*na, na))`,
reshaped back. -/
noncomputable def dlr.convolution_dense (h : dlr n) {d : ℕ}
    (A B : Fin n → Matrix (Fin d) (Fin d) ℂ) (beta : ℝ) :
    Fin n → Matrix (Fin d) (Fin d) ℂ :=
  unflattenV (flattenSq (h.convolution_matrix A beta) * flattenV B)

/-! ### Green's functions and Dyson solvers -/

/-- `np.linalg.solve(A, B)` (dense solve; external dependency contract). -/
noncomputable def npSolve {ι : Type} [Fintype ι] [DecidableEq ι] {d : ℕ}
    (A : Matrix ι ι ℂ) (B : Matrix ι (Fin d) ℂ) : Matrix ι (Fin d) ℂ :=
  A⁻¹ * B

/-- Output of the dense eigensolver `np.linalg.eigh(H)` /
`scipy.linalg.eigh(H, S)` (external dependency contract): real
eigenvalues `E` and eigenvector matrix `U`. -/
structure EigD (d : ℕ) where
  E : Fin d → ℝ
  U : Matrix (Fin d) (Fin d) ℂ

/-- The eigensolver contract for the generalized problem `(H, S)`:
`H U = S U diag(E)` with `S`-orthonormal eigenvectors. -/
def EigD.solves {d : ℕ} (e : EigD d) (H S : Matrix (Fin d) (Fin d) ℂ) : Prop :=
  H * e.U = S * e.U * Matrix.diagonal (fun ev => (e.E ev : ℂ)) ∧
    e.Uᴴ * S * e.U = 1

/-- `free_greens_function_tau(H_aa, beta, S_aa)`: `g_lE = -kernel(τ̂, E β)`,
then `g_laa = einsum('lE,aE,Eb->lab', g_lE, U, U.T.conj())`, with `(E, U)`
the eigensolver output for `(H, S)`. -/
noncomputable def dlr.free_greens_function_tau (h : dlr n) {d : ℕ}
    (eig : EigD d) (beta : ℝ) : Fin n → Matrix (Fin d) (Fin d) ℂ :=
  fun l => Matrix.of fun a b =>
    ∑ ev, (↑(-kernelFn (h.dlrit l) (eig.E ev * beta)) : ℂ) *
      (eig.U a ev * (starRingEnd ℂ) (eig.U b ev))

/-- The boundary-value system matrix of `free_greens_function_dlr`:
`D = kron(T_lx ⊙ ω/β, S) - kron(T_lx, H)`, with the last block row
replaced by the anti-periodic boundary condition
`kron(K(0,ω) + K(1,ω), S)`. -/
noncomputable def dlr.freeDlrSystem (h : dlr n) {d : ℕ}
    (H : Matrix (Fin d) (Fin d) ℂ) (beta : ℝ)
    (S : Matrix (Fin d) (Fin d) ℂ) :
    Matrix (Fin n × Fin d) (Fin n × Fin d) ℂ :=
  Matrix.of fun p q =>
    if (p.1 : ℕ) = n - 1 then
      (↑(kernelFn 0 (h.dlrrf q.1) + kernelFn 1 (h.dlrrf q.1)) : ℂ) * S p.2 q.2
    else
      (↑(h.T_lx p.1 q.1 * h.dlrrf q.1 / beta) : ℂ) * S p.2 q.2 -
        (↑(h.T_lx p.1 q.1) : ℂ) * H p.2 q.2

/-- The right-hand side of `free_greens_function_dlr`: zero except the last
block row, which is `-I`. -/
def dlr.freeDlrRhs (n d : ℕ) : Matrix (Fin n × Fin d) (Fin d) ℂ :=
  Matrix.of fun p c =>
    if (p.1 : ℕ) = n - 1 then -(if p.2 = c then 1 else 0) else 0

/-- `free_greens_function_dlr(H_aa, beta, S_aa)`: solve the boundary-value
system and reshape to DLR coefficients. -/
noncomputable def dlr.free_greens_function_dlr (h : dlr n) {d : ℕ}
    (H : Matrix (Fin d) (Fin d) ℂ) (beta : ℝ)
    (S : Matrix (Fin d) (Fin d) ℂ := 1) :
    Fin n → Matrix (Fin d) (Fin d) ℂ :=
  unflattenV (npSolve (h.freeDlrSystem H beta S) (dlr.freeDlrRhs n d))

/-- `dyson_dlr(H_aa, Sigma_xaa, beta, iterative=False)` (the direct branch):
`g0 = dlr_from_tau(free_greens_function_tau(H, beta, S))`,
`D = kron(eye(n), I) - convolution_matrix(convolution(g0, Σ, β), β)` flattened,
`g = solve(D, g0.reshape(...))`.  The dense eigensolver inside
`free_greens_function_tau` is the oracle `eig`. -/
noncomputable def dlr.dyson_dlr_direct (h : dlr n) {d : ℕ} (eig : EigD d)
    (Sigma : Fin n → Matrix (Fin d) (Fin d) ℂ) (beta : ℝ) :
    Fin n → Matrix (Fin d) (Fin d) ℂ :=
  let g0_iaa := h.free_greens_function_tau eig beta
  let g0_xaa := h.dlr_from_tau g0_iaa
  let g0Sigma_xaa := h.convolution g0_xaa Sigma beta
  let D := (1 : Matrix (Fin n × Fin d) (Fin n × Fin d) ℂ) -
    flattenSq (h.convolution_matrix g0Sigma_xaa beta)
  let b := flattenV g0_xaa
  unflattenV (npSolve D b)

/-- Flattened rank-3 arrays, the vectors the iterative solver acts on. -/
abbrev DysonVec (n d : ℕ) := Matrix (Fin n × Fin d) (Fin d) ℂ

/-- The external `scipy.sparse.linalg.gmres` contract, wrapped by
`solver_wrapper`: takes the system operator, right-hand side, initial
guess, preconditioner and tolerance, and returns the approximate solution
together with the convergence flag `info` (`0` on convergence, `> 0` the
iteration count on non-convergence within the budget). -/
def GmresSolver (n d : ℕ) : Type :=
  (DysonVec n d → DysonVec n d) → DysonVec n d → DysonVec n d →
    (DysonVec n d → DysonVec n d) → ℝ → DysonVec n d × ℤ

/-- `dyson_dlr(H_aa, Sigma_xaa, beta, iterative=True, lomem=False, tol)`:
build the implicit operator `x ↦ tau_from_dlr(x - C x)`, the
Matsubara-resolvent preconditioner, the initial guess `x0 = M b`, call
GMRES through `solver_wrapper`, and return the reshaped first component of
the solver output.  The Python code raises nowhere on this path, so the
result is always `Except.ok`. -/
noncomputable def dlr.dyson_dlr_iterative (h : dlr n) {d : ℕ} (eig : EigD d)
    (Sigma : Fin n → Matrix (Fin d) (Fin d) ℂ) (beta : ℝ)
    (gmres : GmresSolver n d) (tol : ℝ) :
    Except String (Fin n → Matrix (Fin d) (Fin d) ℂ) :=
  let g0_iaa := h.free_greens_function_tau eig beta
  let g0_xaa := h.dlr_from_tau g0_iaa
  let g0Sigma_xaa := h.convolution g0_xaa Sigma beta
  let C_AA := flattenSq (h.convolution_matrix g0Sigma_xaa beta)
  let Amatvec : DysonVec n d → DysonVec n d := fun xv =>
    flattenV (h.tau_from_dlr (unflattenV (xv - C_AA * xv)))
  let M_qaa := fun q => ((1 : Matrix (Fin d) (Fin d) ℂ) -
    h.matsubara_from_dlr g0Sigma_xaa beta q)⁻¹
  let Mmatvec : DysonVec n d → DysonVec n d := fun xv =>
    flattenV (h.dlr_from_matsubara
      (fun q => M_qaa q *
        h.matsubara_from_dlr (h.dlr_from_tau (unflattenV xv)) beta q) beta)
  let b_Aa := flattenV g0_iaa
  let x0_Aa := Mmatvec b_Aa
  let res := gmres Amatvec b_Aa x0_Aa Mmatvec tol
  Except.ok (unflattenV res.1)

/-! ## Concrete handles and arrays used to instantiate the theorems -/

theorem matrix_inv_one {α : Type} [CommRing α] {ι : Type} [Fintype ι]
    [DecidableEq ι] : (1 : Matrix ι ι α)⁻¹ = 1 :=
  Matrix.inv_eq_left_inv (Matrix.one_mul 1)

/-- `lu_solve` with the trivial identity factorization is the identity. -/
theorem luSolve_trivial {α : Type} [Field α] {V : Type} [AddCommGroup V]
    [Module α V] (B : Fin n → V) : luSolve (LUFact.trivial n α) B = B := by
  unfold luSolve LUFact.trivial
  rw [show (⟨1, 1, 1⟩ : LUFact n α).U = 1 from rfl,
    show (⟨1, 1, 1⟩ : LUFact n α).L = 1 from rfl,
    show (⟨1, 1, 1⟩ : LUFact n α).P = 1 from rfl,
    Matrix.transpose_one, matrix_inv_one, mapX_one, mapX_one, mapX_one]

/-- A concrete rank-1 fermionic handle with identity fit matrices. -/
noncomputable def handle1 : dlr 1 where
  xi := -1
  lamb := 10
  eps := 1 / 10 ^ 10
  dlrit := fun _ => 1 / 2
  dlrrf := fun _ => 1
  dlrmf := fun _ => 0
  T_lx := 1
  luT := LUFact.trivial 1 ℝ
  T_qx := 1
  luQ := LUFact.trivial 1 ℂ

/-- The same handle with bosonic statistics sign. -/
noncomputable def handleB : dlr 1 := { handle1 with xi := 1 }

/-- A concrete represented function: one scalar block of value `2`. -/
def Gconst : Fin 1 → Matrix (Fin 1) (Fin 1) ℂ := fun _ => Matrix.of fun _ _ => 2

/-- A concrete represented function with a non-symmetric `2 × 2` block. -/
def Gasym : Fin 1 → Matrix (Fin 2) (Fin 2) ℂ := fun _ => Matrix.of ![![0, 1], ![0, 0]]

/-- A concrete single query time. -/
def tau1 : Fin 1 → ℝ := fun _ => 0

/-! ## C1: imaginary-time round trip -/

/-- C1: for every `dlr` basis handle and every rank-3 array `G` with
first-axis length the basis rank, `dlr_from_tau(tau_from_dlr(G)) = G` and
`tau_from_dlr(dlr_from_tau(G)) = G` (exactly, in exact arithmetic), under
the hypothesis that `(dlrit2cf, it2cfpiv)` is a pivoted LU factorization of
the dense matrix `T_lx`. -/
theorem tau_roundtrip (h : dlr n) {d : ℕ}
    (G : Fin n → Matrix (Fin d) (Fin d) ℂ)
    (hfact : h.luT.factorizes h.T_lx) :
    h.dlr_from_tau (h.tau_from_dlr G) = G ∧
      h.tau_from_dlr (h.dlr_from_tau G) = G :=
  ⟨luSolve_mapX hfact G, mapX_luSolve hfact G⟩

/-- C1 witness: the round trip at a concrete handle and array. -/
theorem tau_roundtrip_witness :
    handle1.luT.factorizes handle1.T_lx ∧
      (handle1.dlr_from_tau (handle1.tau_from_dlr Gconst) = Gconst ∧
        handle1.tau_from_dlr (handle1.dlr_from_tau Gconst) = Gconst) :=
  ⟨LUFact.trivial_factorizes,
    tau_roundtrip handle1 Gconst LUFact.trivial_factorizes⟩

/-! ## C2: Matsubara round trip

The code composition gives the blockwise TRANSPOSE of `G`, not `G`:
`matsubara_from_dlr` transposes the two trailing axes of a rank-3 array and
conjugates, while `dlr_from_matsubara` conjugates without transposing, so
the net effect of the round trip on each `d × d` block is a transpose. -/

/-- C2 counterexample: a rank-1 handle whose `(dlrmf2cf, mf2cfpiv)` is a
pivoted LU factorization of `T_qx`, `beta = 1 > 0`, and an array with a
non-symmetric block, on which
`dlr_from_matsubara(matsubara_from_dlr(G, 1), 1) ≠ G`. -/
theorem matsubara_roundtrip_counterexample :
    handle1.luQ.factorizes handle1.T_qx ∧ (0 : ℝ) < 1 ∧
      handle1.dlr_from_matsubara (handle1.matsubara_from_dlr Gasym 1) 1 ≠ Gasym := by
  refine ⟨LUFact.trivial_factorizes, one_pos, fun heq => ?_⟩
  have h01 : handle1.dlr_from_matsubara (handle1.matsubara_from_dlr Gasym 1) 1 0 0 1
      = Gasym 0 0 1 := by rw [heq]
  simp [dlr.dlr_from_matsubara, dlr.matsubara_from_dlr, handle1, luSolve_trivial,
    mapX_one, Gasym, Matrix.map_apply, Matrix.transpose_apply, Matrix.vecHead,
    Matrix.vecTail] at h01

/-- C2 (amended): under the LU-factorization hypothesis the Matsubara round
trip returns the blockwise transpose of `G`; it equals `G` only when every
block is symmetric. -/
theorem matsubara_roundtrip_transpose (h : dlr n) {d : ℕ}
    (G : Fin n → Matrix (Fin d) (Fin d) ℂ) (beta : ℝ) (hb : 0 < beta)
    (hfact : h.luQ.factorizes h.T_qx) :
    h.dlr_from_matsubara (h.matsubara_from_dlr G beta) beta =
      fun x => (G x)ᵀ := by
  have hβ : (beta : ℂ) ≠ 0 := Complex.ofReal_ne_zero.mpr (ne_of_gt hb)
  unfold dlr.dlr_from_matsubara
  have harg :
      (fun q => (beta : ℂ)⁻¹ • (h.matsubara_from_dlr G beta q).map (starRingEnd ℂ))
        = mapX h.T_qx fun x => (G x)ᵀ := by
    funext q
    ext a b
    simp only [dlr.matsubara_from_dlr, Matrix.map_apply, Matrix.smul_apply,
      Matrix.transpose_apply, smul_eq_mul]
    rw [starRingEnd_apply, starRingEnd_apply, star_star, ← mul_assoc,
      inv_mul_cancel₀ hβ, one_mul]
    simp [mapX, Matrix.sum_apply, Matrix.smul_apply, smul_eq_mul,
      Matrix.transpose_apply]
  rw [harg]
  exact luSolve_mapX hfact _

/-- C2 amended witness: the transpose round trip at a concrete handle. -/
theorem matsubara_roundtrip_transpose_witness :
    (0 : ℝ) < 1 ∧ handle1.luQ.factorizes handle1.T_qx ∧
      handle1.dlr_from_matsubara (handle1.matsubara_from_dlr Gasym 1) 1 =
        fun x => (Gasym x)ᵀ :=
  ⟨one_pos, LUFact.trivial_factorizes,
    matsubara_roundtrip_transpose handle1 Gasym 1 one_pos LUFact.trivial_factorizes⟩

/-! ## C4: bosonic off-grid evaluation fails loudly -/

/-- C4: for a handle with bosonic statistics (`xi = +1`) every
`eval_dlr_tau` call fails (raises, returns no value); for fermionic
statistics (`xi = -1`) the call does not fail on account of the statistic. -/
theorem eval_dlr_tau_boson_guard (h : dlr n) {d m : ℕ}
    (G : Fin n → Matrix (Fin d) (Fin d) ℂ) (tau : Fin m → ℝ) (beta : ℝ) :
    (h.xi = 1 → (h.eval_dlr_tau G tau beta).isOk = false) ∧
      (h.xi = -1 → (h.eval_dlr_tau G tau beta).isOk = true) := by
  constructor <;>
    (intro hxi; unfold dlr.eval_dlr_tau; rw [hxi];
      norm_num [Except.isOk, Except.toBool])

/-- C4 witness: the bosonic failure and the fermionic success at concrete
handles, arrays and times. -/
theorem eval_dlr_tau_boson_guard_witness :
    (handleB.xi = 1 ∧ (handleB.eval_dlr_tau Gconst tau1 1).isOk = false) ∧
      (handle1.xi = -1 ∧ (handle1.eval_dlr_tau Gconst tau1 1).isOk = true) :=
  ⟨⟨rfl, (eval_dlr_tau_boson_guard handleB Gconst tau1 1).1 rfl⟩,
    ⟨rfl, (eval_dlr_tau_boson_guard handle1 Gconst tau1 1).2 rfl⟩⟩

/-! ## C5: the convolution formula -/

/-- C5: `convolution(A, B, beta)` returns
`beta · [k1 ⊙ (A·B) + TtT·(A·B) + (Wᵀ·A)·B + A·(Wᵀ·B)]`, where
`W_ij = 1/(1 + ω_i - ω_j) - δ_ij`, `k1_x = -K(1, ω_x)` and
`TtT = dlr_from_tau(τ̂ ⊙ T_lx)` are the members precomputed in
`dlr.__init__`. -/
theorem convolution_formula (h : dlr n) {d : ℕ}
    (A B : Fin n → Matrix (Fin d) (Fin d) ℂ) (beta : ℝ) :
    h.convolution A B beta = (fun x =>
      beta • (h.k1_x x • (A x * B x)
        + mapX h.TtT_xx (fun y => A y * B y) x
        + mapX h.W_xxᵀ A x * B x
        + A x * mapX h.W_xxᵀ B x)) ∧
      (∀ i j, h.W_xx i j =
        1 / ((if i = j then 1 else 0) + h.dlrrf i - h.dlrrf j) -
          (if i = j then 1 else 0)) ∧
      (∀ x, h.k1_x x = -kernelFn 1 (h.dlrrf x)) ∧
      h.TtT_xx =
        Matrix.of (h.dlr_from_tau fun l => fun xp => h.get_tau 1 l * h.T_lx l xp) := by
  refine ⟨?_, fun i j => rfl, fun x => rfl, rfl⟩
  funext x
  unfold dlr.convolution
  simp only []
  abel_nf

/-! ## C6: the dense convolution-matrix form agrees with `convolution` -/

/-- Applying the flattened block matrix to a flattened rank-3 array is the
blockwise sum of matrix products. -/
theorem flatten_mul {d : ℕ} (C : Fin n → Fin n → Matrix (Fin d) (Fin d) ℂ)
    (B : Fin n → Matrix (Fin d) (Fin d) ℂ) :
    unflattenV (flattenSq C * flattenV B) = fun x => ∑ j, C x j * B j := by
  funext x
  ext a c
  simp [unflattenV, flattenSq, flattenV, Matrix.mul_apply, Fintype.sum_prod_type,
    Matrix.sum_apply]

theorem sum_smul_mul_right {d : ℕ} (M : Matrix (Fin n) (Fin n) ℝ)
    (A : Matrix (Fin d) (Fin d) ℂ) (B : Fin n → Matrix (Fin d) (Fin d) ℂ)
    (x : Fin n) : ∑ j, M j x • (A * B j) = A * mapX Mᵀ B x := by
  rw [mapX]
  simp only [Matrix.transpose_apply]
  rw [Matrix.mul_sum]
  exact Finset.sum_congr rfl fun j _ => (Matrix.mul_smul A (M j x) (B j)).symm

/-- C6: `convolution_dense(A, B, beta)` — reshaping
`convolution_matrix(A, beta)` to an `(r·dim) × (r·dim)` matrix and applying
it to `B` — returns the same result as `convolution(A, B, beta)`, for every
handle, `beta`, and all rank-3 arrays `A`, `B` of matching shape. -/
theorem convolution_dense_eq_convolution (h : dlr n) {d : ℕ}
    (A B : Fin n → Matrix (Fin d) (Fin d) ℂ) (beta : ℝ) :
    h.convolution_dense A B beta = h.convolution A B beta := by
  funext x
  simp only [dlr.convolution_dense, dlr.convolution, dlr.convolution_matrix]
  rw [flatten_mul]
  simp only [Matrix.smul_mul, Matrix.add_mul, ite_mul, Matrix.zero_mul,
    Finset.sum_add_distrib, Finset.sum_ite_eq, Finset.mem_univ, if_true,
    ← Finset.smul_sum]
  rw [sum_smul_mul_right h.W_xx (A x) B x]
  have h2 : ∑ j, h.TtT_xx x j • (A j * B j) = mapX h.TtT_xx (fun y => A y * B y) x := by
    simp [mapX]
  rw [h2]
  abel_nf

/-! ## C3: non-convergence of the iterative Dyson solve is not fatal

`dyson_dlr(..., iterative=True)` destructures the scipy GMRES output as
`g_Aa, info` and returns the reshaped `g_Aa` without ever inspecting
`info` (the non-convergence flag); no exception carrying the residual norm
or the iteration count exists on this path. -/

/-- A concrete eigensolver output for the `1 × 1` Hamiltonian `H = [1]`. -/
noncomputable def eig1 : EigD 1 := ⟨fun _ => 1, 1⟩

/-- The zero self-energy. -/
def Sigma0 : Fin 1 → Matrix (Fin 1) (Fin 1) ℂ := fun _ => 0

/-- A solver stub that always reports non-convergence after `5` iterations
(`info = 5 > 0` in scipy's convention) and hands back an approximate
result (the right-hand side). -/
def gmresStub : GmresSolver 1 1 := fun _ b _ _ _ => (b, 5)

/-- A solver stub returning the same approximate result with `info = 0`. -/
def gmresOkStub : GmresSolver 1 1 := fun _ b _ _ _ => (b, 0)

/-- C3 counterexample: a solver that reports non-convergence within the
iteration budget on every call (`info > 0` always), on which
`dyson_dlr(iterative=True)` still returns a result (`Except.ok`) instead of
failing — refuting the claim that the call raises and never returns. -/
theorem dyson_iterative_nonconvergence_counterexample :
    (∀ Aop b x0 M t, 0 < (gmresStub Aop b x0 M t).2) ∧
      (handle1.dyson_dlr_iterative eig1 Sigma0 1 gmresStub (1 / 10 ^ 12)).isOk
        = true :=
  ⟨fun _ _ _ _ _ => by norm_num [gmresStub], rfl⟩

/-- C3 (amended): the iterative Dyson solve always returns `Except.ok` of
the solver's approximate result; the convergence flag `info` is discarded —
two solvers that agree on the returned vector but differ arbitrarily in
`info` produce identical results, and no failure reporting the residual
norm or iteration count occurs. -/
theorem dyson_iterative_discards_info (h : dlr n) {d : ℕ} (eig : EigD d)
    (Sigma : Fin n → Matrix (Fin d) (Fin d) ℂ) (beta tol : ℝ)
    (g1 g2 : GmresSolver n d)
    (hagree : ∀ Aop b x0 M t, (g1 Aop b x0 M t).1 = (g2 Aop b x0 M t).1) :
    (h.dyson_dlr_iterative eig Sigma beta g1 tol).isOk = true ∧
      h.dyson_dlr_iterative eig Sigma beta g1 tol =
        h.dyson_dlr_iterative eig Sigma beta g2 tol := by
  unfold dlr.dyson_dlr_iterative
  refine ⟨rfl, ?_⟩
  dsimp only
  rw [hagree]

/-- C3 amended witness: the two concrete solver stubs at a concrete
handle. -/
theorem dyson_iterative_discards_info_witness :
    (∀ Aop b x0 M t, (gmresStub Aop b x0 M t).1 = (gmresOkStub Aop b x0 M t).1) ∧
      ((handle1.dyson_dlr_iterative eig1 Sigma0 1 gmresStub (1 / 10 ^ 12)).isOk
          = true ∧
        handle1.dyson_dlr_iterative eig1 Sigma0 1 gmresStub (1 / 10 ^ 12) =
          handle1.dyson_dlr_iterative eig1 Sigma0 1 gmresOkStub (1 / 10 ^ 12)) :=
  ⟨fun _ _ _ _ _ => rfl,
    dyson_iterative_discards_info handle1 eig1 Sigma0 1 (1 / 10 ^ 12)
      gmresStub gmresOkStub fun _ _ _ _ _ => rfl⟩

/-! ## C7: exact mirror symmetry of the discretized kernel matrix -/

theorem ntOf_even (lamb : ℝ) : ntOf lamb = 2 * (ntOf lamb / 2) := by
  show 2 * order * nptOf lamb = 2 * (2 * order * nptOf lamb / 2)
  unfold order
  omega

/-- C7: the discretized kernel matrix satisfies
`kmat[nt-1-i, no-1-j] = kmat[i, j]` for ALL row indices `i` and column
indices `j` — the array form of the mirror symmetry `K(1-τ, -ω) = K(τ, ω)`,
holding by construction since the upper time half is the doubly reversed
copy of the directly computed lower half. -/
theorem kmat_mirror_symmetry (lamb : ℝ) (i : Fin (ntOf lamb))
    (j : Fin (noOf lamb)) :
    kmat lamb ⟨ntOf lamb - 1 - (i : ℕ), by omega⟩
        ⟨noOf lamb - 1 - (j : ℕ), by omega⟩
      = kmat lamb i j := by
  have hnt := ntOf_even lamb
  unfold kmat
  split_ifs with h1 h2 h2
  · exfalso
    have h1' : ntOf lamb - 1 - (i : ℕ) < ntOf lamb / 2 := h1
    omega
  · rfl
  · congr 1
    · exact congrArg (tGrid lamb) (Fin.ext (by simp; omega))
    · exact congrArg (wGrid lamb) (Fin.ext (by simp; omega))
  · exfalso
    have h1' : ¬(ntOf lamb - 1 - (i : ℕ) < ntOf lamb / 2) := h1
    omega

/-! ## C9: `barycentric_interpolation` and positionwise node coincidence

The guard `np.argwhere(x_i == x)` compares node and query arrays
POSITIONWISE: a query point equal to a node at a different array position
is not detected, and when a positionwise match exists the function returns
only the single stored value at the first matching position, not a
per-query-point array.  The claimed pointwise semantics therefore fail. -/

/-- C9 counterexample: query array `[0, 5]` against nodes `[0, 1]` (values
`[10, 20]`, weights `[1, -1]`).  The claim demands a per-point result array
whose entry for the off-node query `5` is the weighted-rational
interpolant; the code instead returns the single stored value `10`
(`Sum.inl`), never a per-point array. -/
theorem barycentric_counterexample :
    barycentric_interpolation (K := ℚ) ![0, 5] ![0, 1] ![10, 20] ![1, -1]
        = Sum.inl 10 ∧
      ∀ g : Fin 2 → ℚ,
        barycentric_interpolation (K := ℚ) ![0, 5] ![0, 1] ![10, 20] ![1, -1]
          ≠ Sum.inr g := by
  have h1 : barycentric_interpolation (K := ℚ) ![0, 5] ![0, 1] ![10, 20] ![1, -1]
      = Sum.inl 10 := by decide
  exact ⟨h1, fun g hg => Sum.inl_ne_inr (h1 ▸ hg)⟩

/-- C9 (amended): the stored value is returned only on POSITIONWISE
coincidence `x_i[j] == x[j]`, and then the call returns the single value at
the first (least) matching position; when the lengths differ, or no
position matches, every query entry gets the weighted-rational
interpolant. -/
theorem barycentric_positionwise {K : Type} [Field K] [DecidableEq K]
    {M N : ℕ} (x : Fin M → K) (x_i f_i w_i : Fin N → K) :
    (M ≠ N →
      barycentric_interpolation x x_i f_i w_i
        = Sum.inr (baryRational x x_i f_i w_i)) ∧
    (∀ hMN : M = N, (∀ j : Fin N, x_i j ≠ x (Fin.cast hMN.symm j)) →
      barycentric_interpolation x x_i f_i w_i
        = Sum.inr (baryRational x x_i f_i w_i)) ∧
    (∀ (hMN : M = N) (j0 : Fin N), x_i j0 = x (Fin.cast hMN.symm j0) →
      (∀ j : Fin N, j < j0 → x_i j ≠ x (Fin.cast hMN.symm j)) →
      barycentric_interpolation x x_i f_i w_i = Sum.inl (f_i j0)) := by
  refine ⟨fun hne => ?_, fun hMN hno => ?_, fun hMN j0 hj0 hmin => ?_⟩
  · unfold barycentric_interpolation
    rw [dif_neg hne]
  · unfold barycentric_interpolation
    rw [dif_pos hMN, Fin.find_eq_none_iff.mpr hno]
  · unfold barycentric_interpolation
    rw [dif_pos hMN,
      show Fin.find (fun j : Fin N => x_i j = x (Fin.cast hMN.symm j)) = some j0 from
        Fin.find_eq_some_iff.mpr
          ⟨hj0, fun j hj => not_lt.mp fun hlt => hmin j hlt hj⟩]

/-- C9 amended witness: the first-positionwise-match branch at a concrete
query. -/
theorem barycentric_positionwise_witness :
    (![(0 : ℚ), 1] 0 = ![(0 : ℚ), 5] (Fin.cast rfl 0)) ∧
      barycentric_interpolation (K := ℚ) ![0, 5] ![0, 1] ![10, 20] ![1, -1]
        = Sum.inl 10 := by
  refine ⟨by decide, ?_⟩
  have hres := (barycentric_positionwise (![0, 5] : Fin 2 → ℚ)
    ![0, 1] ![10, 20] ![1, -1]).2.2 rfl 0 (by decide) (by decide)
  simpa using hres

/-! ## C10: structure of the adaptive time grid

Supporting facts: the reversed first-kind Chebyshev points are strictly
increasing, lie strictly inside `(-1, 1)` and are antisymmetric; the
dyadic time breakpoints increase from `0` to `1/2`; the frequency panel
breakpoints are antisymmetric about `ω = 0`; the split kernel satisfies
the exact mirror identity `K(1-τ, -ω) = K(τ, ω)`. -/

theorem chebPt_angle (k : ℕ) :
    chebPt 24 k = Real.cos (Real.pi * (2 * (23 - (k : ℝ)) + 1) / 48) := by
  unfold chebPt
  congr 1
  push_cast
  ring

theorem chebPt_mem (k : ℕ) (hk : k < 24) :
    -1 < chebPt 24 k ∧ chebPt 24 k < 1 := by
  rw [chebPt_angle k]
  have hpi := Real.pi_pos
  have hk' : (k : ℝ) ≤ 23 := by exact_mod_cast Nat.le_of_lt_succ hk
  have hk0 : (0 : ℝ) ≤ (k : ℝ) := Nat.cast_nonneg k
  have harg0 : 0 < Real.pi * (2 * (23 - (k : ℝ)) + 1) / 48 :=
    div_pos (mul_pos hpi (by nlinarith)) (by norm_num)
  have harg1 : Real.pi * (2 * (23 - (k : ℝ)) + 1) / 48 < Real.pi := by
    rw [div_lt_iff₀ (by norm_num : (0:ℝ) < 48)]
    nlinarith
  constructor
  · have := Real.strictAntiOn_cos
      (Set.mem_Icc.mpr ⟨le_of_lt harg0, le_of_lt harg1⟩)
      (Set.mem_Icc.mpr ⟨le_of_lt hpi, le_refl _⟩) harg1
    simpa [Real.cos_pi] using this
  · have := Real.strictAntiOn_cos
      (Set.mem_Icc.mpr ⟨le_refl _, le_of_lt (harg0.trans harg1)⟩)
      (Set.mem_Icc.mpr ⟨le_of_lt harg0, le_of_lt harg1⟩) harg0
    simpa [Real.cos_zero] using this

theorem chebPt_strictMono {k1 k2 : ℕ} (h12 : k1 < k2) (hk2 : k2 < 24) :
    chebPt 24 k1 < chebPt 24 k2 := by
  rw [chebPt_angle k1, chebPt_angle k2]
  have hpi := Real.pi_pos
  have hc2 : (k2 : ℝ) ≤ 23 := by exact_mod_cast Nat.le_of_lt_succ hk2
  have hc12 : (k1 : ℝ) < (k2 : ℝ) := by exact_mod_cast h12
  have hk0 : (0 : ℝ) ≤ (k1 : ℝ) := Nat.cast_nonneg k1
  apply Real.strictAntiOn_cos
  · constructor
    · exact div_nonneg (mul_nonneg hpi.le (by nlinarith)) (by norm_num)
    · rw [div_le_iff₀ (by norm_num : (0:ℝ) < 48)]; nlinarith
  · constructor
    · exact div_nonneg (mul_nonneg hpi.le (by nlinarith)) (by norm_num)
    · rw [div_le_iff₀ (by norm_num : (0:ℝ) < 48)]; nlinarith
  · rw [div_lt_div_iff₀ (by norm_num : (0:ℝ) < 48) (by norm_num : (0:ℝ) < 48)]
    nlinarith

theorem chebPt_antisym {k : ℕ} (hk : k < 24) :
    chebPt 24 (23 - k) = -chebPt 24 k := by
  rw [chebPt_angle (23 - k), chebPt_angle k, ← Real.cos_pi_sub]
  congr 1
  rw [Nat.cast_sub (by omega : k ≤ 23)]
  ring

theorem tPanelBreak_nonneg (npt i : ℕ) : 0 ≤ tPanelBreak npt i := by
  unfold tPanelBreak
  split_ifs
  · exact le_refl 0
  · positivity

theorem tPanelBreak_lt (npt : ℕ) {i j : ℕ} (hij : i < j) (hj : j ≤ npt) :
    tPanelBreak npt i < tPanelBreak npt j := by
  unfold tPanelBreak
  rw [if_neg (by omega : ¬j = 0)]
  split_ifs with hi
  · positivity
  · exact pow_lt_pow_right_of_lt_one₀ (by norm_num) (by norm_num) (by omega)

theorem tPanelBreak_le (npt : ℕ) {i j : ℕ} (hij : i ≤ j) (hj : j ≤ npt) :
    tPanelBreak npt i ≤ tPanelBreak npt j := by
  rcases eq_or_lt_of_le hij with rfl | h
  · exact le_refl _
  · exact le_of_lt (tPanelBreak_lt npt h hj)

theorem tPanelBreak_last {npt : ℕ} (h : 1 ≤ npt) :
    tPanelBreak npt npt = 1 / 2 := by
  unfold tPanelBreak
  rw [if_neg (by omega), show npt + 1 - npt = 1 from by omega]
  norm_num

theorem nptOf_pos (lamb : ℝ) : 1 ≤ nptOf lamb := by
  unfold nptOf
  have h := le_max_right (⌈Real.log lamb / Real.log 2⌉ - 2) 1
  omega

theorem panelPt_mem {a b : ℝ} (hab : a < b) {k : ℕ} (hk : k < 24) :
    a < panelPt a b 24 k ∧ panelPt a b 24 k < b := by
  obtain ⟨h1, h2⟩ := chebPt_mem k hk
  unfold panelPt
  constructor <;> nlinarith

theorem panelPt_mono {a b : ℝ} (hab : a < b) {k1 k2 : ℕ} (h12 : k1 < k2)
    (hk2 : k2 < 24) : panelPt a b 24 k1 < panelPt a b 24 k2 := by
  have := chebPt_strictMono h12 hk2
  unfold panelPt
  nlinarith

theorem wPanelBreak_antisym (lamb : ℝ) (P : ℕ) {m : ℕ} (hm : m ≤ 2 * P) :
    wPanelBreak lamb P (2 * P - m) = -wPanelBreak lamb P m := by
  unfold wPanelBreak
  rcases lt_trichotomy m P with h | h | h
  · rw [if_neg (by omega), if_neg (by omega), if_pos h,
      show 2 * P - (2 * P - m) = m from by omega, neg_neg]
  · rw [h, show 2 * P - P = P from by omega, if_neg (by omega), if_pos rfl,
      if_neg (by omega), if_pos rfl]
    norm_num
  · rw [if_pos (by omega), if_neg (by omega), if_neg (by omega)]

/-- Mirror identity of the split kernel, exact by construction of the
numerically stable branches: `K(1-τ, -ω) = K(τ, ω)`. -/
theorem kernelFn_mirror (tau omega : ℝ) :
    kernelFn (1 - tau) (-omega) = kernelFn tau omega := by
  unfold kernelFn
  rcases lt_trichotomy omega 0 with h | h | h
  · rw [if_pos (by linarith), if_neg (by linarith)]
    ring_nf
  · subst h
    norm_num
  · rw [if_neg (by linarith), if_pos h]
    ring_nf

theorem noOf_decomp (lamb : ℝ) : noOf lamb = 24 * (2 * npoOf lamb) := by
  unfold noOf order
  ring

theorem ntOf_decomp (lamb : ℝ) : ntOf lamb = 24 * (2 * nptOf lamb) := by
  unfold ntOf order
  ring

/-- The frequency grid is antisymmetric: reversing the index negates the
frequency, since the panels are symmetric about `ω = 0` and the Chebyshev
points are antisymmetric within each panel. -/
theorem wGrid_antisym (lamb : ℝ) (j : Fin (noOf lamb)) :
    wGrid lamb ⟨noOf lamb - 1 - (j : ℕ), by omega⟩ = -wGrid lamb j := by
  have hno := noOf_decomp lamb
  have hq : (j : ℕ) / 24 < 2 * npoOf lamb := by omega
  have hk : (j : ℕ) % 24 < 24 := Nat.mod_lt _ (by norm_num)
  have hdiv : (noOf lamb - 1 - (j : ℕ)) / 24 = 2 * npoOf lamb - 1 - (j : ℕ) / 24 := by
    omega
  have hmod : (noOf lamb - 1 - (j : ℕ)) % 24 = 23 - (j : ℕ) % 24 := by omega
  unfold wGrid order
  dsimp only
  rw [hdiv, hmod,
    show 2 * npoOf lamb - 1 - (j : ℕ) / 24 = 2 * npoOf lamb - ((j : ℕ) / 24 + 1)
      from by omega]
  rw [show 2 * npoOf lamb - ((j : ℕ) / 24 + 1) + 1 = 2 * npoOf lamb - (j : ℕ) / 24
      from by omega]
  rw [wPanelBreak_antisym lamb (npoOf lamb) (by omega : (j : ℕ) / 24 + 1 ≤ 2 * npoOf lamb),
    wPanelBreak_antisym lamb (npoOf lamb) (by omega : (j : ℕ) / 24 ≤ 2 * npoOf lamb)]
  unfold panelPt
  rw [chebPt_antisym hk]
  ring

/-- Each populated time-grid entry lies strictly inside its panel. -/
theorem tGrid_lower_mem (lamb : ℝ) (i : Fin (ntOf lamb))
    (hi : (i : ℕ) < ntOf lamb / 2) :
    tPanelBreak (nptOf lamb) ((i : ℕ) / 24) < tGrid lamb i ∧
      tGrid lamb i < tPanelBreak (nptOf lamb) ((i : ℕ) / 24 + 1) := by
  have hnt := ntOf_decomp lamb
  have hq : (i : ℕ) / 24 < nptOf lamb := by omega
  unfold tGrid order
  rw [if_pos hi]
  exact panelPt_mem (tPanelBreak_lt _ (Nat.lt_succ_self _) (by omega))
    (Nat.mod_lt _ (by norm_num))

/-- The populated (lower) half of the time grid is strictly increasing. -/
theorem tGrid_strictMono (lamb : ℝ) (i1 i2 : Fin (ntOf lamb))
    (h1 : (i1 : ℕ) < ntOf lamb / 2) (h2 : (i2 : ℕ) < ntOf lamb / 2)
    (h12 : i1 < i2) : tGrid lamb i1 < tGrid lamb i2 := by
  have hnt := ntOf_decomp lamb
  have hlt : (i1 : ℕ) < (i2 : ℕ) := h12
  by_cases hq : (i1 : ℕ) / 24 = (i2 : ℕ) / 24
  · have hk : (i1 : ℕ) % 24 < (i2 : ℕ) % 24 := by omega
    have hq2 : (i2 : ℕ) / 24 < nptOf lamb := by omega
    unfold tGrid order
    rw [if_pos h1, if_pos h2, hq]
    exact panelPt_mono (tPanelBreak_lt _ (Nat.lt_succ_self _) (by omega)) hk
      (Nat.mod_lt _ (by norm_num))
  · have hqlt : (i1 : ℕ) / 24 < (i2 : ℕ) / 24 := by omega
    obtain ⟨hl1, hu1⟩ := tGrid_lower_mem lamb i1 h1
    obtain ⟨hl2, hu2⟩ := tGrid_lower_mem lamb i2 h2
    have hmid : tPanelBreak (nptOf lamb) ((i1 : ℕ) / 24 + 1) ≤
        tPanelBreak (nptOf lamb) ((i2 : ℕ) / 24) :=
      tPanelBreak_le _ (by omega) (by omega)
    linarith

/-- The populated time-grid entries lie strictly inside `(0, 1/2)`. -/
theorem tGrid_mem (lamb : ℝ) (i : Fin (ntOf lamb))
    (hi : (i : ℕ) < ntOf lamb / 2) :
    0 < tGrid lamb i ∧ tGrid lamb i < 1 / 2 := by
  have hnt := ntOf_decomp lamb
  obtain ⟨hl, hu⟩ := tGrid_lower_mem lamb i hi
  have h0 := tPanelBreak_nonneg (nptOf lamb) ((i : ℕ) / 24)
  have hle : tPanelBreak (nptOf lamb) ((i : ℕ) / 24 + 1) ≤
      tPanelBreak (nptOf lamb) (nptOf lamb) :=
    tPanelBreak_le _ (by omega) (le_refl _)
  rw [tPanelBreak_last (nptOf_pos lamb)] at hle
  exact ⟨lt_of_le_of_lt h0 hl, lt_of_lt_of_le hu hle⟩

/-- The claimed structure of the time grid and of the mirrored kernel rows;
split out so the claim theorem and its witness can state it once. -/
def tGridStructure (lamb : ℝ) : Prop :=
  (∀ i1 i2 : Fin (ntOf lamb), (i1 : ℕ) < ntOf lamb / 2 →
    (i2 : ℕ) < ntOf lamb / 2 → i1 < i2 → tGrid lamb i1 < tGrid lamb i2) ∧
  (∀ i : Fin (ntOf lamb), (i : ℕ) < ntOf lamb / 2 →
    0 < tGrid lamb i ∧ tGrid lamb i < 1 / 2) ∧
  (∀ i : Fin (ntOf lamb), ntOf lamb / 2 ≤ (i : ℕ) → tGrid lamb i = 0) ∧
  (∀ i : Fin (ntOf lamb), ntOf lamb / 2 ≤ (i : ℕ) → ∀ j : Fin (noOf lamb),
    kmat lamb i j =
      kernelFn (1 - tGrid lamb ⟨ntOf lamb - 1 - (i : ℕ), by omega⟩)
        (wGrid lamb j))

/-- C10: for every scale `lamb ≥ 1` the time grid returned by
`kernel_discretization` has `nt = 2·order·npt` entries of which only the
first `nt/2` are populated — strictly increasing and strictly inside
`(0, 1/2)` — while every entry with index `i ≥ nt/2` equals exactly `0`;
the physical upper-half time point for such an index is `1 - t[nt-1-i]`:
row `i` of the mirrored kernel matrix equals the kernel evaluated at
`1 - t[nt-1-i]` against the (unreversed) frequency grid. -/
theorem tGrid_structure_holds (lamb : ℝ) (hl : 1 ≤ lamb) : tGridStructure lamb := by
  refine ⟨tGrid_strictMono lamb, tGrid_mem lamb, fun i hi => ?_, fun i hi j => ?_⟩
  · unfold tGrid
    rw [if_neg (by omega)]
  · unfold kmat
    rw [if_neg (by omega), wGrid_antisym lamb j, ← kernelFn_mirror, neg_neg]

/-- C10 witness: the grid structure at the concrete scale `lamb = 2`. -/
theorem tGrid_structure_witness : (1 : ℝ) ≤ 2 ∧ tGridStructure 2 :=
  ⟨by norm_num, tGrid_structure_holds 2 (by norm_num)⟩

/-! ## C8: the Dyson solve with zero self-energy

With `Σ = 0` every convolution term vanishes, the direct Dyson system
collapses to the identity applied to the free propagator's DLR
coefficients, and — whenever those coefficients satisfy the boundary-value
system of `free_greens_function_dlr` (the exact-arithmetic rendering of
"the free propagator is representable to accuracy ε") — the two routines
agree exactly. -/

theorem convolution_zero_right (h : dlr n) {d : ℕ}
    (A : Fin n → Matrix (Fin d) (Fin d) ℂ) (beta : ℝ) :
    h.convolution A 0 beta = 0 := by
  funext x
  simp [dlr.convolution, mapX]

theorem convolution_matrix_zero (h : dlr n) {d : ℕ} (beta : ℝ) :
    h.convolution_matrix (0 : Fin n → Matrix (Fin d) (Fin d) ℂ) beta = fun _ _ => 0 := by
  funext i j
  simp [dlr.convolution_matrix, mapX]

theorem flattenSq_zero {d : ℕ} :
    flattenSq (fun _ _ => (0 : Matrix (Fin d) (Fin d) ℂ) : Fin n → Fin n → _) = 0 := by
  ext p q
  simp [flattenSq]

theorem npSolve_one {d : ℕ} (B : Matrix (Fin n × Fin d) (Fin d) ℂ) :
    npSolve 1 B = B := by
  unfold npSolve
  rw [matrix_inv_one, Matrix.one_mul]

theorem unflattenV_flattenV {d : ℕ} (G : Fin n → Matrix (Fin d) (Fin d) ℂ) :
    unflattenV (flattenV G) = G := by
  funext x
  ext a c
  rfl

/-- C8: for every handle, Hermitian `H` and `beta > 0`,
`dyson_dlr(H, Σ=0, beta)` (direct solve, eigensolver modelled by the valid
oracle `eig`) returns the same DLR-coefficient Green's function as
`free_greens_function_dlr(H, beta)`: with zero self-energy the convolution
terms vanish and the direct solve reduces to the identity system applied to
the free propagator, while the boundary-value solve returns those same
coefficients under the hypothesis `hsol` that they satisfy the
boundary-value system exactly (the exact-arithmetic form of the ε-accuracy
clause) and `hD` that the system is invertible. -/
theorem dyson_dlr_zero_sigma (h : dlr n) {d : ℕ} (eig : EigD d)
    (H : Matrix (Fin d) (Fin d) ℂ) (beta : ℝ) (hH : H.IsHermitian)
    (hb : 0 < beta) (heig : eig.solves H 1)
    (hD : IsUnit (h.freeDlrSystem H beta 1).det)
    (hsol : h.freeDlrSystem H beta 1 *
        flattenV (h.dlr_from_tau (h.free_greens_function_tau eig beta)) =
      dlr.freeDlrRhs n d) :
    h.dyson_dlr_direct eig 0 beta = h.free_greens_function_dlr H beta 1 := by
  have hsolve : npSolve (h.freeDlrSystem H beta 1) (dlr.freeDlrRhs n d) =
      flattenV (h.dlr_from_tau (h.free_greens_function_tau eig beta)) := by
    unfold npSolve
    rw [← hsol, ← Matrix.mul_assoc, Matrix.nonsing_inv_mul _ hD, Matrix.one_mul]
  unfold dlr.free_greens_function_dlr
  rw [hsolve, unflattenV_flattenV]
  unfold dlr.dyson_dlr_direct
  dsimp only
  rw [convolution_zero_right, convolution_matrix_zero, flattenSq_zero, sub_zero,
    npSolve_one, unflattenV_flattenV]

/-! ### Concrete instantiation of the zero-self-energy Dyson solve

A rank-2 handle whose nodes are `τ̂ = (0, 1)`, `ω = (1, 2)` and whose fit
matrix has the kernel column `K(τ̂, 1)` plus a constant column: the free
propagator for `H = [1]`, `β = 1` is then exactly representable with
coefficients `(-1, 0)`, and those coefficients satisfy the boundary-value
system exactly thanks to `K(0, ω) + K(1, ω) = 1`. -/

/-- The anti-periodicity identity of the split kernel:
`K(0, ω) + K(1, ω) = 1` exactly, for every `ω`. -/
theorem kernelFn_bc (omega : ℝ) : kernelFn 0 omega + kernelFn 1 omega = 1 := by
  unfold kernelFn
  split_ifs with h
  · have hd : (0 : ℝ) < 1 + Real.exp (-omega) := by positivity
    simp only [neg_zero, zero_mul, Real.exp_zero, neg_mul, one_mul]
    field_simp
  · have hd : (0 : ℝ) < 1 + Real.exp omega := by positivity
    simp only [sub_zero, one_mul, sub_self, zero_mul, Real.exp_zero]
    field_simp
    ring

/-- `K(0, 1)`. -/
noncomputable def kap0 : ℝ := kernelFn 0 1

/-- `K(1, 1)`. -/
noncomputable def kap1 : ℝ := kernelFn 1 1

theorem kap0_eq : kap0 = 1 / (1 + Real.exp (-1)) := by
  unfold kap0 kernelFn
  rw [if_pos one_pos]
  norm_num

theorem kap1_eq : kap1 = Real.exp (-1) / (1 + Real.exp (-1)) := by
  unfold kap1 kernelFn
  rw [if_pos one_pos]
  norm_num

theorem kap0_pos : 0 < kap0 := by
  rw [kap0_eq]
  positivity

theorem kap1_pos : 0 < kap1 := by
  rw [kap1_eq]
  positivity

theorem kap0_ne_kap1 : kap0 ≠ kap1 := by
  rw [kap0_eq, kap1_eq]
  intro hk
  have hd : (0 : ℝ) < 1 + Real.exp (-1) := by positivity
  have h1 : Real.exp (-1) = 1 := by
    field_simp at hk
    linarith
  have h2 : Real.exp (-1) < 1 := by
    rw [show (1 : ℝ) = Real.exp 0 from Real.exp_zero.symm]
    exact Real.exp_lt_exp.mpr (by norm_num)
  rw [h1] at h2
  exact lt_irrefl 1 h2

/-- A concrete rank-2 fermionic handle: `τ̂ = (0, 1)`, `ω = (1, 2)`,
`T_lx = [[K(0,1), 1], [K(1,1), 1]]`, with its (pivot-free) LU
factorization. -/
noncomputable def handle2 : dlr 2 where
  xi := -1
  lamb := 10
  eps := 1 / 10 ^ 10
  dlrit := ![0, 1]
  dlrrf := ![1, 2]
  dlrmf := ![0, 1]
  T_lx := Matrix.of ![![kap0, 1], ![kap1, 1]]
  luT := ⟨1, Matrix.of ![![1, 0], ![kap1 / kap0, 1]],
    Matrix.of ![![kap0, 1], ![0, 1 - kap1 / kap0]]⟩
  T_qx := 1
  luQ := LUFact.trivial 2 ℂ

theorem handle2_fact : handle2.luT.factorizes handle2.T_lx := by
  have h0 := kap0_pos
  have hne := kap0_ne_kap1
  refine ⟨?_, ?_, ?_, ?_, ?_, ?_⟩
  · ext i j
    fin_cases i <;> fin_cases j <;>
      simp [handle2, Matrix.mul_apply, Fin.sum_univ_two, Matrix.one_apply] <;>
      field_simp
  · show (1 : Matrix (Fin 2) (Fin 2) ℝ)ᵀ * 1 = 1
    rw [Matrix.transpose_one, Matrix.one_mul]
  · intro i j hij
    fin_cases i <;> fin_cases j <;> simp_all [handle2]
  · intro i
    fin_cases i <;> simp [handle2]
  · intro i j hij
    fin_cases i <;> fin_cases j <;> simp_all [handle2]
  · intro i
    fin_cases i <;> simp [handle2]
    · exact ne_of_gt h0
    · intro h1
      apply hne
      have h2 : kap1 / kap0 = 1 := by linarith
      field_simp [ne_of_gt h0] at h2
      linarith

/-- The free propagator of `H = [1]`, `β = 1` at the `τ̂ = (0, 1)` nodes of
`handle2` is `(-K(0,1), -K(1,1))`. -/
theorem handle2_g0 :
    handle2.free_greens_function_tau eig1 1 =
      fun l => Matrix.of fun _ _ => (↑(-kernelFn (![(0 : ℝ), 1] l) 1) : ℂ) := by
  funext l
  ext a b
  fin_cases a
  fin_cases b
  simp [dlr.free_greens_function_tau, eig1, handle2, Matrix.one_apply]

/-- The exact DLR coefficients `(-1, 0)` of that free propagator. -/
noncomputable def cvec : Fin 2 → Matrix (Fin 1) (Fin 1) ℂ :=
  fun x => Matrix.of fun _ _ => ![(-1 : ℂ), 0] x

theorem handle2_c :
    handle2.dlr_from_tau (handle2.free_greens_function_tau eig1 1) = cvec := by
  unfold dlr.dlr_from_tau
  apply luSolve_unique handle2_fact
  rw [handle2_g0]
  funext l
  ext a b
  fin_cases l <;>
    simp [mapX, handle2, cvec, Fin.sum_univ_two, kap0, kap1, Complex.real_smul]

/-- The boundary-value system of `handle2` at `H = [1]`, `β = 1`, `S = 1`
is the `2 × 2` matrix `[[0, 1], [1, 1]]` (blocks are scalars). -/
theorem handle2_D_entries :
    handle2.freeDlrSystem (1 : Matrix (Fin 1) (Fin 1) ℂ) 1 1 =
      (Matrix.of fun p q => ![![(0 : ℂ), 1], ![1, 1]] p.1 q.1 :
        Matrix (Fin 2 × Fin 1) (Fin 2 × Fin 1) ℂ) := by
  ext p q
  obtain ⟨x, a⟩ := p
  obtain ⟨y, b⟩ := q
  fin_cases x <;> fin_cases y <;> fin_cases a <;> fin_cases b <;>
    simp [dlr.freeDlrSystem, handle2, Matrix.one_apply, kernelFn_bc] <;>
    push_cast <;> ring

/-- An explicit right inverse of that system matrix. -/
noncomputable def Emat2 : Matrix (Fin 2 × Fin 1) (Fin 2 × Fin 1) ℂ :=
  Matrix.of fun p q => ![![(-1 : ℂ), 1], ![1, 0]] p.1 q.1

theorem handle2_D_isUnit : IsUnit (handle2.freeDlrSystem (1 : Matrix (Fin 1) (Fin 1) ℂ) 1 1).det := by
  apply Matrix.isUnit_det_of_right_inverse (B := Emat2)
  rw [handle2_D_entries]
  ext p q
  obtain ⟨x, a⟩ := p
  obtain ⟨y, b⟩ := q
  fin_cases x <;> fin_cases y <;> fin_cases a <;> fin_cases b <;>
    simp [Emat2, Matrix.mul_apply, Fintype.sum_prod_type, Fin.sum_univ_two,
      Matrix.one_apply, Prod.ext_iff]

/-- The coefficients `(-1, 0)` satisfy the boundary-value system exactly:
the differential row vanishes because `ω₀ = β·H`, and the boundary row is
`K(0,ω) + K(1,ω) = 1` applied to `c₀ + c₁ = -1`. -/
theorem handle2_hsol :
    handle2.freeDlrSystem (1 : Matrix (Fin 1) (Fin 1) ℂ) 1 1 *
        flattenV (handle2.dlr_from_tau (handle2.free_greens_function_tau eig1 1)) =
      dlr.freeDlrRhs 2 1 := by
  rw [handle2_c, handle2_D_entries]
  ext p c
  obtain ⟨x, a⟩ := p
  fin_cases x <;> fin_cases a <;> fin_cases c <;>
    simp [cvec, flattenV, dlr.freeDlrRhs, Matrix.mul_apply, Fintype.sum_prod_type,
      Fin.sum_univ_two]

theorem eig1_solves : eig1.solves 1 1 := by
  constructor
  · simp [eig1, EigD.solves, Matrix.diagonal_one]
  · simp [eig1]

/-- C8 witness: the zero-self-energy Dyson solve against the boundary-value
solve at the concrete rank-2 handle, `H = [1]`, `β = 1`. -/
theorem dyson_dlr_zero_sigma_witness :
    (1 : Matrix (Fin 1) (Fin 1) ℂ).IsHermitian ∧ (0 : ℝ) < 1 ∧
      eig1.solves 1 1 ∧
      IsUnit (handle2.freeDlrSystem (1 : Matrix (Fin 1) (Fin 1) ℂ) 1 1).det ∧
      (handle2.freeDlrSystem (1 : Matrix (Fin 1) (Fin 1) ℂ) 1 1 *
          flattenV (handle2.dlr_from_tau (handle2.free_greens_function_tau eig1 1)) =
        dlr.freeDlrRhs 2 1) ∧
      handle2.dyson_dlr_direct eig1 0 1 = handle2.free_greens_function_dlr (1 : Matrix (Fin 1) (Fin 1) ℂ) 1 1 :=
  ⟨Matrix.isHermitian_one, one_pos, eig1_solves, handle2_D_isUnit, handle2_hsol,
    dyson_dlr_zero_sigma handle2 eig1 (1 : Matrix (Fin 1) (Fin 1) ℂ) 1 Matrix.isHermitian_one one_pos
      eig1_solves handle2_D_isUnit handle2_hsol⟩

end Pydlr
